import Mathlib

/-!
Shallow embedding of `quote.py`, a line-oriented quoting/escaping filter.
Strings are modelled as `List Char` (Python strings are sequences of Unicode
code points).  Each `re.sub` / `re.search` call of the source is embedded as
an explicit per-character map or a left-to-right scanning recursion with the
same semantics.
-/

namespace QuotePy

/-- The character class of code points 0x20 to 0x7E used by the regex passes
of `escape`, `c` and `c_maybe` in the source (printable ASCII range). -/
def printableASCII (ch : Char) : Bool :=
  0x20 ≤ ch.toNat && ch.toNat ≤ 0x7E

/-- Character for the octal digit `n % 8`. -/
def octDigit (n : Nat) : Char :=
  match n % 8 with
  | 0 => '0' | 1 => '1' | 2 => '2' | 3 => '3'
  | 4 => '4' | 5 => '5' | 6 => '6' | _ => '7'

/-- Octal digits of `n`, most significant first (a single zero digit for 0),
as produced by the Python octal format conversion. -/
def natToOctal (n : Nat) : List Char :=
  if _h : n < 8 then [octDigit n]
  else natToOctal (n / 8) ++ [octDigit n]
  decreasing_by exact Nat.div_lt_self (by omega) (by omega)

/-- Zero-pad a digit list to width at least 3, as the Python zero-padded
width-3 octal format of the source does. -/
def pad3 (l : List Char) : List Char :=
  List.replicate (3 - l.length) '0' ++ l

/-- Octal digit character test (code points 48 to 55). -/
def isOctDigitChar (d : Char) : Bool := 48 ≤ d.toNat && d.toNat ≤ 55

/-- Value of a list of octal digit characters, most significant first. -/
def ofOctal (ds : List Char) : Nat := ds.foldl (fun a d => a * 8 + (d.toNat - 48)) 0


/-- The `simple_escape_sequence` dict of the source, keyed by Python string
(embedded as `List Char`).  Ten keys are one-character strings; the
question-mark entry is keyed by the TWO-character string backslash
question-mark, because the source writes that key as a backslash followed
by a question mark inside a plain (non-raw) Python string literal, and
backslash question-mark is not a recognized Python escape sequence, so the
backslash is kept.  A single question-mark character therefore never
matches any key. -/
def simple_escape_sequence : List (List Char × List Char) :=
  [ (['\x07'],      ['\\', 'a']),  -- alert
    (['\x08'],      ['\\', 'b']),  -- backspace
    (['\t'],        ['\\', 't']),  -- horizontal tab
    (['\n'],        ['\\', 'n']),  -- new line
    (['\x0B'],      ['\\', 'v']),  -- vertical tab
    (['\x0C'],      ['\\', 'f']),  -- form feed
    (['\r'],        ['\\', 'r']),  -- carriage return
    (['"'],         ['\\', '"']),  -- double quote
    (['\''],        ['\\', '\'']), -- single quote
    (['\\', '?'],   ['\\', '?']),  -- two-character key: backslash, question mark
    (['\\'],        ['\\', '\\'])  -- backslash
  ]

/-- Function `escape_char_to_octal` of the source: the membership test of
the Python dict compares the one-character string of `ch` against the keys
(so the two-character question-mark key never matches); on a hit the
mnemonic is returned, otherwise a backslash followed by the zero-padded
(width at least 3) octal digits of the code point. -/
def escape_char_to_octal (ch : Char) : List Char :=
  match simple_escape_sequence.lookup [ch] with
  | some m => m
  | none => '\\' :: pad3 (natToOctal ch.toNat)

/-- Function `literal` of the source: identity. -/
def literal (s : List Char) : List Char := s

/-- Function `shell_always` of the source: replace every single quote with
the four characters quote, backslash, quote, quote, and surround the result
with single quotes. -/
def shell_always (s : List Char) : List Char :=
  '\'' :: (s.flatMap fun ch => if ch = '\'' then ['\'', '\\', '\'', '\''] else [ch]) ++ ['\'']

/-- The character class of the special-character regex in `shell`
(POSIX.1-2008 shell special characters), in source order: tab, newline,
space, double quote, hash, dollar, percent, ampersand, single quote,
parentheses, star, semicolon, less-than, equals, greater-than, question
mark, open bracket, backslash, backtick, pipe, tilde. -/
def shellSpecialClass : List Char :=
  ['\t', '\n', ' ', '"', '#', '$', '%', '&', '\'', '(', ')', '*', ';',
   '<', '=', '>', '?', '[', '\\', Char.ofNat 0x60, '|', '~']

/-- Function `shell` of the source: quote with `shell_always` iff the string contains
a character of the special class. -/
def shell (s : List Char) : List Char :=
  if s.any (fun ch => shellSpecialClass.contains ch) then shell_always s else s

/-- The first `re.sub` pass of `escape`: prefix each space and backslash with
a backslash. -/
def subSpaceBackslash (s : List Char) : List Char :=
  s.flatMap fun ch => if ch = ' ' || ch = '\\' then ['\\', ch] else [ch]

/-- The non-printable-character pass used by `escape` and `c`: replace
each character outside printable ASCII with `escape_char_to_octal` of it. -/
def subNonPrintable (s : List Char) : List Char :=
  s.flatMap fun ch => if printableASCII ch then [ch] else escape_char_to_octal ch

/-- Function `escape` of the source: escape spaces and backslashes, then escape
non-printable-ASCII characters to octal. -/
def escape (s : List Char) : List Char :=
  subNonPrintable (subSpaceBackslash s)

/-- The first `re.sub` pass of `c`: prefix each double quote and backslash
with a backslash. -/
def subQuoteBackslash (s : List Char) : List Char :=
  s.flatMap fun ch => if ch = '"' || ch = '\\' then ['\\', ch] else [ch]

/-- The nine characters that complete a trigraph after `??`:
exclamation mark, single quote, parentheses, hyphen, slash, less-than,
equals, greater-than (the third regex class of `c` in the source). -/
def trigraphChars : List Char :=
  ['!', '\'', '(', ')', '-', '/', '<', '=', '>']

/-- The trigraph `re.sub` pass of `c` (pattern: `??` followed by a character
of `trigraphChars`, replacement inserting a backslash before the second
question mark): left-to-right non-overlapping scan, replacing each match
`??X` by `?` backslash `?X` and continuing after it; on a failed match the
scan advances one character. -/
def subTrigraph : List Char → List Char
  | c1 :: c2 :: x :: rest =>
    if c1 = '?' ∧ c2 = '?' ∧ trigraphChars.contains x then
      '?' :: '\\' :: '?' :: x :: subTrigraph rest
    else
      c1 :: subTrigraph (c2 :: x :: rest)
  | l => l

/-- The trigraph `re.search` of `c_maybe`: does some position start a match
of `??` followed by a character of `trigraphChars`? -/
def searchTrigraph : List Char → Bool
  | c1 :: c2 :: x :: rest =>
    (c1 = '?' && c2 = '?' && trigraphChars.contains x) || searchTrigraph (c2 :: x :: rest)
  | _ => false

/-- Function `c` of the source: escape double quotes and backslashes, escape
non-printable-ASCII characters, guard trigraphs, and surround with double
quotes. -/
def c (s : List Char) : List Char :=
  '"' :: (subTrigraph (subNonPrintable (subQuoteBackslash s)) ++ ['"'])

/-- Function `c_maybe` of the source: apply `c` iff the string contains a double quote
or backslash, a character outside printable ASCII, or a trigraph-forming
sequence. -/
def c_maybe (s : List Char) : List Char :=
  if s.any (fun ch => ch = '"' || ch = '\\')
      || s.any (fun ch => !printableASCII ch)
      || searchTrigraph s then
    c s
  else
    s

/-- The complement of the escaped character class of `pcre`: ASCII
letter, digit or underscore. -/
def isWordChar (ch : Char) : Bool :=
  ('A' ≤ ch && ch ≤ 'Z') || ('a' ≤ ch && ch ≤ 'z') || ('0' ≤ ch && ch ≤ '9') || ch = '_'

/-- Function `pcre` of the source: prefix every character not an ASCII
letter, digit or underscore with
a backslash. -/
def pcre (s : List Char) : List Char :=
  s.flatMap fun ch => if isWordChar ch then [ch] else ['\\', ch]

/-- Whitespace set of the Python string module: space, tab, newline,
carriage return, vertical tab, form feed. -/
def pythonWhitespace : List Char :=
  [' ', '\t', '\n', '\r', '\x0B', '\x0C']

/-- Substring containment of Python strings: `pat` occurs as a contiguous
run of the other list (the empty pattern is contained in every string). -/
def isSubstrOf (pat : List Char) : List Char → Bool
  | [] => pat.isEmpty
  | ch :: rest => pat.isPrefixOf (ch :: rest) || isSubstrOf pat rest

/-- Function `csv` of the source.  `fs` and `rs` are the field and record
separators (the Python defaults are comma and newline); the Python
substring-containment operator is embedded as `isSubstrOf`. -/
def csv (s fs rs : List Char) : List Char :=
  if isSubstrOf ['"'] s then
    '"' :: ((s.flatMap fun ch => if ch = '"' then ['"', '"'] else [ch]) ++ ['"'])
  else if isSubstrOf fs s || isSubstrOf rs s ||
      (decide (0 < s.length) &&
        (s.head?.any pythonWhitespace.contains || s.getLast?.any pythonWhitespace.contains)) then
    '"' :: (s ++ ['"'])
  else
    s

/-- Function `csv` with the Python default separators (comma and newline). -/
def csvDefault (s : List Char) : List Char :=
  csv s [','] ['\n']

/-- The `quoting_style_to_function_map` of the source. -/
def quoting_style_to_function_map : List (String × (List Char → List Char)) :=
  [ ("literal",      literal),
    ("shell-always", shell_always),
    ("shell",        shell),
    ("escape",       escape),
    ("c",            c),
    ("c-maybe",      c_maybe),
    ("pcre",         pcre),
    ("csv",          csvDefault) ]

/-- Function `quote` of the source: dispatch on the style name, returning the string
unchanged when the name is not registered. -/
def quote (s : List Char) (quoting_style : String) : List Char :=
  match quoting_style_to_function_map.lookup quoting_style with
  | some f => f s
  | none => s

mutual

/-- Modelled from the spec: the consuming side of the `shell-always`
round-trip property, a POSIX-compliant shell word parser outside any quote
(no such parser exists in the source; the spec only asserts the round trip
against one).  Outside quotes a backslash makes the next character literal,
a single quote enters single-quote state, and any other character is
literal; an unterminated quote is a parse failure. -/
def posixParseUnquoted : List Char → Option (List Char)
  | [] => some []
  | ch :: rest =>
    if ch = '\\' then
      match rest with
      | [] => some ['\\']
      | ch2 :: rest2 => (posixParseUnquoted rest2).map fun t => ch2 :: t
    else if ch = '\'' then posixParseQuoted rest
    else (posixParseUnquoted rest).map fun t => ch :: t

/-- Modelled from the spec: the POSIX shell parser inside a single-quoted
region — every character up to the next single quote is literal, and a
missing closing quote is a parse failure. -/
def posixParseQuoted : List Char → Option (List Char)
  | [] => none
  | ch :: rest =>
    if ch = '\'' then posixParseUnquoted rest
    else (posixParseQuoted rest).map fun t => ch :: t

end




theorem flatMap_id_of_forall {s : List Char} {f : Char → List Char}
    (h : ∀ ch ∈ s, f ch = [ch]) : s.flatMap f = s := by
  induction s with
  | nil => rfl
  | cons a t ih =>
    rw [List.flatMap_cons, h a (List.mem_cons_self a t),
      ih fun ch hch => h ch (List.mem_cons_of_mem a hch)]
    rfl

theorem isSubstrOf_singleton_iff {a : Char} {s : List Char} :
    isSubstrOf [a] s = true ↔ a ∈ s := by
  induction s with
  | nil => simp [isSubstrOf]
  | cons ch rest ih =>
    simp [isSubstrOf, List.isPrefixOf, ih]

theorem searchTrigraph_cons_of {a : Char} {t : List Char}
    (h : searchTrigraph t = true) : searchTrigraph (a :: t) = true := by
  match t with
  | [] => simp [searchTrigraph] at h
  | [c1] => simp [searchTrigraph] at h
  | [c1, c2] => simp [searchTrigraph] at h
  | c1 :: c2 :: c3 :: rest =>
    simp only [searchTrigraph] at h ⊢
    simp at h ⊢
    tauto



theorem searchTrigraph_iff {s : List Char} :
    searchTrigraph s = true ↔ ∃ l x r, x ∈ trigraphChars ∧ s = l ++ '?' :: '?' :: x :: r := by
  constructor
  · intro h
    induction s using searchTrigraph.induct with
    | case1 c1 c2 x rest ih =>
      simp only [searchTrigraph] at h
      rcases Bool.or_eq_true_iff.mp h with hm | ht
      · simp at hm
        obtain ⟨⟨h1, h2⟩, h3⟩ := hm
        exact ⟨[], x, rest, h3, by simp [h1, h2]⟩
      · obtain ⟨l, x', r, hx, heq⟩ := ih ht
        exact ⟨c1 :: l, x', r, hx, by simp [heq]⟩
    | case2 l hl =>
      exfalso
      match l, hl with
      | [], _ => simp [searchTrigraph] at h
      | [c1], _ => simp [searchTrigraph] at h
      | [c1, c2], _ => simp [searchTrigraph] at h
      | c1 :: c2 :: x :: rest, hl => exact hl c1 c2 x rest rfl
  · rintro ⟨l, x, r, hx, rfl⟩
    induction l with
    | nil =>
      simp only [searchTrigraph, List.nil_append]
      simp [hx]
    | cons a l ih =>
      exact searchTrigraph_cons_of ih



theorem subTrigraph_eq_self {s : List Char} (h : searchTrigraph s = false) :
    subTrigraph s = s := by
  induction s using subTrigraph.induct with
  | case1 c1 c2 x rest hm ih =>
    exfalso
    obtain ⟨h1, h2, h3⟩ := hm
    simp [searchTrigraph, h1, h2] at h
    exact h.1 (by simpa using h3)
  | case2 c1 c2 x rest hm ih =>
    simp only [searchTrigraph, Bool.or_eq_false_iff] at h
    rw [subTrigraph, if_neg hm, ih h.2]
  | case3 l hl =>
    match l, hl with
    | [], _ => rfl
    | [c1], _ => rfl
    | [c1, c2], _ => rfl
    | c1 :: c2 :: x :: rest, hl => exact absurd rfl (hl c1 c2 x rest)

theorem subTrigraph_all_printable {s : List Char}
    (h : ∀ ch ∈ s, printableASCII ch = true) :
    ∀ ch ∈ subTrigraph s, printableASCII ch = true := by
  induction s using subTrigraph.induct with
  | case1 c1 c2 x rest hm ih =>
    obtain ⟨h1, h2, h3⟩ := hm
    rw [subTrigraph, if_pos ⟨h1, h2, h3⟩]
    intro ch hch
    simp only [List.mem_cons] at hch
    rcases hch with rfl | rfl | rfl | rfl | hch
    · decide
    · decide
    · decide
    · exact h _ (by simp)
    · exact ih (fun ch' hch' => h ch' (by simp [hch'])) ch hch
  | case2 c1 c2 x rest hm ih =>
    rw [subTrigraph, if_neg hm]
    intro ch hch
    rcases List.mem_cons.mp hch with rfl | hch
    · exact h ch (by simp)
    · exact ih (fun ch' hch' => h ch' (by simp at hch' ⊢; tauto)) ch hch
  | case3 l hl =>
    match l, hl with
    | [], _ => exact h
    | [c1], _ => exact h
    | [c1, c2], _ => exact h
    | c1 :: c2 :: x :: rest, hl => exact absurd rfl (hl c1 c2 x rest)



theorem octDigit_toNat (n : Nat) : (octDigit n).toNat = 48 + n % 8 := by
  have h : n % 8 < 8 := Nat.mod_lt _ (by omega)
  unfold octDigit
  rcases (show n % 8 = 0 ∨ n % 8 = 1 ∨ n % 8 = 2 ∨ n % 8 = 3 ∨ n % 8 = 4 ∨ n % 8 = 5
      ∨ n % 8 = 6 ∨ n % 8 = 7 by omega) with h8|h8|h8|h8|h8|h8|h8|h8 <;> rw [h8] <;> rfl

theorem ofOctal_append_digit (l : List Char) (d : Char) :
    ofOctal (l ++ [d]) = ofOctal l * 8 + (d.toNat - 48) := by
  unfold ofOctal
  rw [List.foldl_append]
  rfl

theorem ofOctal_natToOctal (n : Nat) : ofOctal (natToOctal n) = n := by
  induction n using natToOctal.induct with
  | case1 n h =>
    unfold natToOctal
    rw [dif_pos h]
    simp [ofOctal, octDigit_toNat]
    omega
  | case2 n h ih =>
    unfold natToOctal
    rw [dif_neg h, ofOctal_append_digit, ih, octDigit_toNat]
    omega

theorem natToOctal_digits (n : Nat) : ∀ d ∈ natToOctal n, isOctDigitChar d = true := by
  induction n using natToOctal.induct with
  | case1 n h =>
    unfold natToOctal
    rw [dif_pos h]
    intro d hd
    simp at hd
    subst hd
    simp [isOctDigitChar, octDigit_toNat]
    omega
  | case2 n h ih =>
    unfold natToOctal
    rw [dif_neg h]
    intro d hd
    rcases List.mem_append.mp hd with hd | hd
    · exact ih d hd
    · simp at hd
      subst hd
      simp [isOctDigitChar, octDigit_toNat]
      omega

theorem natToOctal_length_le (k : Nat) : ∀ n, 1 ≤ k → n < 8 ^ k → (natToOctal n).length ≤ k := by
  induction k with
  | zero => intro n h; omega
  | succ k ih =>
    intro n _ hn
    by_cases h8 : n < 8
    · unfold natToOctal
      rw [dif_pos h8]
      simp
    · unfold natToOctal
      rw [dif_neg h8]
      have hk1 : 1 ≤ k := by
        by_contra hk0
        have : k = 0 := by omega
        subst this
        simp [pow_succ] at hn
        omega
      have hdiv : n / 8 < 8 ^ k := by
        rw [Nat.div_lt_iff_lt_mul (by omega)]
        calc n < 8 ^ (k + 1) := hn
        _ = 8 ^ k * 8 := by rw [pow_succ]
      have := ih (n / 8) hk1 hdiv
      simp
      omega

theorem pad3_length {l : List Char} (h : l.length ≤ 3) : (pad3 l).length = 3 := by
  simp [pad3]
  omega

theorem foldl_octal_replicate_zero (m : Nat) :
    List.foldl (fun a d => a * 8 + (d.toNat - 48)) 0 (List.replicate m '0') = 0 := by
  induction m with
  | zero => rfl
  | succ m ih =>
    rw [List.replicate_succ, List.foldl_cons]
    simpa using ih

theorem ofOctal_pad3 (l : List Char) : ofOctal (pad3 l) = ofOctal l := by
  unfold pad3 ofOctal
  rw [List.foldl_append, foldl_octal_replicate_zero]

theorem pad3_digits {l : List Char} (h : ∀ d ∈ l, isOctDigitChar d = true) :
    ∀ d ∈ pad3 l, isOctDigitChar d = true := by
  intro d hd
  rcases List.mem_append.mp hd with hd | hd
  · have := List.eq_of_mem_replicate hd
    subst this
    decide
  · exact h d hd



theorem lookup_mem_values {l : List (List Char × List Char)} {a b : List Char}
    (h : l.lookup a = some b) : b ∈ l.map Prod.snd := by
  induction l with
  | nil => simp [List.lookup] at h
  | cons p rest ih =>
    obtain ⟨k, v⟩ := p
    rw [List.lookup] at h
    split at h
    · simp at h
      subst h
      simp
    · simp only [List.map_cons, List.mem_cons]
      exact Or.inr (ih h)

theorem escape_char_to_octal_all_printable (a : Char) :
    ∀ ch ∈ escape_char_to_octal a, printableASCII ch = true := by
  unfold escape_char_to_octal
  split
  case h_1 m hm =>
    have := lookup_mem_values hm
    intro ch hch
    simp [simple_escape_sequence] at this
    rcases this with rfl|rfl|rfl|rfl|rfl|rfl|rfl|rfl|rfl|rfl|rfl <;>
      simp at hch <;> rcases hch with rfl | rfl <;> decide
  case h_2 hm =>
    intro ch hch
    rcases List.mem_cons.mp hch with rfl | hch
    · decide
    · have hd := pad3_digits (natToOctal_digits a.toNat) ch hch
      simp [isOctDigitChar] at hd
      simp [printableASCII]
      omega



theorem subNonPrintable_all_printable (s : List Char) :
    ∀ ch ∈ subNonPrintable s, printableASCII ch = true := by
  intro ch hch
  unfold subNonPrintable at hch
  rcases List.mem_flatMap.mp hch with ⟨a, _, ha⟩
  by_cases hp : printableASCII a = true
  · rw [if_pos hp] at ha
    simp at ha
    subst ha
    exact hp
  · rw [if_neg hp] at ha
    exact escape_char_to_octal_all_printable a ch ha

/-- Claim C10: for every input string, every character emitted by `escape`
and by `c` lies in the printable ASCII range 0x20 to 0x7E. -/
theorem c10_escape_and_c_emit_printable_ascii (s : List Char) :
    (escape s).all printableASCII = true ∧ (c s).all printableASCII = true := by
  constructor
  · rw [List.all_eq_true]
    exact fun ch hch => subNonPrintable_all_printable _ ch hch
  · rw [List.all_eq_true]
    intro ch hch
    unfold c at hch
    rcases List.mem_cons.mp hch with rfl | hch
    · decide
    · rcases List.mem_append.mp hch with hch | hch
      · exact subTrigraph_all_printable (subNonPrintable_all_printable _) ch hch
      · simp at hch
        subst hch
        decide

/-- Claim C6: `escape` is the octal pass applied after the space/backslash
pass, and the two passes fuse into a single per-character map, so a
backslash inserted by the first pass is never rewritten by the second; a
single space becomes backslash space. -/
theorem c6_escape_pass_order_and_fusion :
    (∀ s, escape s = subNonPrintable (subSpaceBackslash s)) ∧
    (∀ s, escape s = s.flatMap fun ch =>
      if ch = ' ' ∨ ch = '\\' then ['\\', ch]
      else if printableASCII ch then [ch] else escape_char_to_octal ch) ∧
    escape [' '] = ['\\', ' '] := by
  refine ⟨fun s => rfl, fun s => ?_, by decide⟩
  unfold escape subNonPrintable subSpaceBackslash
  rw [List.flatMap_assoc]
  congr 1
  funext ch
  by_cases h : ch = ' ' ∨ ch = '\\'
  · rw [if_pos h]
    rcases h with rfl | rfl <;> decide
  · rw [if_neg h]
    have hb : (ch = ' ' || ch = '\\') = false := by
      simp only [Bool.or_eq_false_iff, decide_eq_false_iff_not]
      tauto
    rw [hb]
    simp



theorem natToOctal_seven : natToOctal 7 = ['7'] := by
  unfold natToOctal
  norm_num
  rfl

theorem natToOctal_sixtythree : natToOctal 63 = ['7', '7'] := by
  unfold natToOctal
  norm_num
  rw [natToOctal_seven]
  rfl

/-- Claim C7: the code disagrees with the claim at the question mark.  The
claim lists the question mark among the eleven characters rendered as a
two-character mnemonic, and the comment block of the source (quoting the
C++ standard) lists backslash question-mark among the simple escape
sequences, but the question-mark entry of the dict is keyed by the
two-character string backslash question-mark, so a single question mark is
not in the table and `escape_char_to_octal` renders it as the octal escape
backslash 077 instead of its mnemonic.  The mnemonic still sits in the
table as a value, behind the unreachable two-character key. -/
theorem c7_escape_char_to_octal_question_mark :
    escape_char_to_octal '?' = ['\\', '0', '7', '7'] ∧
    escape_char_to_octal '?' ≠ ['\\', '?'] ∧
    simple_escape_sequence.lookup ['?'] = none ∧
    (['\\', '?'], ['\\', '?']) ∈ simple_escape_sequence := by
  have h : escape_char_to_octal '?' = ['\\', '0', '7', '7'] := by
    unfold escape_char_to_octal
    have h0 : simple_escape_sequence.lookup ['?'] = none := rfl
    rw [h0]
    show '\\' :: pad3 (natToOctal (Char.toNat '?')) = ['\\', '0', '7', '7']
    have h1 : Char.toNat '?' = 63 := rfl
    rw [h1, natToOctal_sixtythree]
    rfl
  exact ⟨h, by rw [h]; decide, rfl, by decide⟩



theorem subQuoteBackslash_eq_self {s : List Char}
    (h : ∀ ch ∈ s, ch ≠ '"' ∧ ch ≠ '\\') : subQuoteBackslash s = s := by
  unfold subQuoteBackslash
  refine flatMap_id_of_forall fun ch hch => ?_
  have := h ch hch
  have hb : (ch = '"' || ch = '\\') = false := by
    simp only [Bool.or_eq_false_iff, decide_eq_false_iff_not]
    tauto
  rw [hb]
  simp

theorem subNonPrintable_eq_self {s : List Char}
    (h : ∀ ch ∈ s, printableASCII ch = true) : subNonPrintable s = s := by
  unfold subNonPrintable
  exact flatMap_id_of_forall fun ch hch => by rw [h ch hch]; simp

/-- Claim C1: `c` first backslash-escapes double quotes and backslashes,
then octal-escapes characters outside printable ASCII, then inserts a
backslash before the second question mark of every trigraph-forming
occurrence, and wraps the result in double quotes; on the three-character
input `??!` it yields a double quote, the four characters `?` backslash
`?` `!`, and a double quote, and that escaped body has no bare `??!`
substring. -/
theorem c1_c_pipeline_and_trigraph_guard :
    (∀ s, c s = '"' ::
      (subTrigraph ((s.flatMap fun ch => if ch = '"' ∨ ch = '\\' then ['\\', ch] else [ch]).flatMap
        fun ch => if 0x20 ≤ ch.toNat ∧ ch.toNat ≤ 0x7E then [ch] else escape_char_to_octal ch)
        ++ ['"'])) ∧
    c ['?', '?', '!'] = ['"', '?', '\\', '?', '!', '"'] ∧
    isSubstrOf ['?', '?', '!']
      (subTrigraph (subNonPrintable (subQuoteBackslash ['?', '?', '!']))) = false := by
  refine ⟨fun s => ?_, by decide, by decide⟩
  unfold c subNonPrintable subQuoteBackslash
  have h1 : (s.flatMap fun ch => if ch = '"' || ch = '\\' then ['\\', ch] else [ch])
      = s.flatMap fun ch => if ch = '"' ∨ ch = '\\' then ['\\', ch] else [ch] := by
    congr 1
    funext ch
    by_cases h : ch = '"' ∨ ch = '\\'
    · rw [if_pos h]
      rcases h with rfl | rfl <;> rfl
    · rw [if_neg h]
      have hb : (ch = '"' || ch = '\\') = false := by
        simp only [Bool.or_eq_false_iff, decide_eq_false_iff_not]
        tauto
      rw [hb]
      simp
  have h2 : ∀ t : List Char,
      (t.flatMap fun ch => if printableASCII ch then [ch] else escape_char_to_octal ch)
      = t.flatMap fun ch =>
          if 0x20 ≤ ch.toNat ∧ ch.toNat ≤ 0x7E then [ch] else escape_char_to_octal ch := by
    intro t
    congr 1
    funext ch
    by_cases h : 0x20 ≤ ch.toNat ∧ ch.toNat ≤ 0x7E
    · rw [if_pos h]
      have hb : printableASCII ch = true := by
        simp only [printableASCII, Bool.and_eq_true, decide_eq_true_iff]
        omega
      rw [hb]
      simp
    · rw [if_neg h]
      have hb : printableASCII ch = false := by
        simp only [printableASCII, Bool.and_eq_false_iff, decide_eq_false_iff_not]
        omega
      rw [hb]
      simp
  rw [h1, h2]



theorem c_trigger_false_iff (s : List Char) :
    (s.any (fun ch => ch = '"' || ch = '\\') || s.any (fun ch => !printableASCII ch)
      || searchTrigraph s) = false ↔
    ((∀ ch ∈ s, ch ≠ '"' ∧ ch ≠ '\\' ∧ 0x20 ≤ ch.toNat ∧ ch.toNat ≤ 0x7E) ∧
      ¬ ∃ l x r, x ∈ trigraphChars ∧ s = l ++ '?' :: '?' :: x :: r) := by
  rw [Bool.or_eq_false_iff, Bool.or_eq_false_iff]
  constructor
  · rintro ⟨⟨h1, h2⟩, h3⟩
    constructor
    · intro ch hch
      have e1 := List.any_eq_false.mp h1 ch hch
      have e2 := List.any_eq_false.mp h2 ch hch
      simp only [Bool.or_eq_true, decide_eq_true_iff, not_or] at e1
      have e2' : printableASCII ch = true := by
        rcases Bool.eq_false_or_eq_true (printableASCII ch) with ht | hf
        · exact ht
        · simp [hf] at e2
      simp only [printableASCII, Bool.and_eq_true, decide_eq_true_iff] at e2'
      exact ⟨e1.1, e1.2, e2'.1, e2'.2⟩
    · intro hex
      rw [← searchTrigraph_iff] at hex
      simp [h3] at hex
  · rintro ⟨h1, h2⟩
    refine ⟨⟨?_, ?_⟩, ?_⟩
    · rw [List.any_eq_false]
      intro ch hch
      have := h1 ch hch
      simp only [Bool.or_eq_true, decide_eq_true_iff, not_or]
      tauto
    · rw [List.any_eq_false]
      intro ch hch
      have hc := h1 ch hch
      intro hbad
      rw [Bool.not_eq_true'] at hbad
      simp only [printableASCII, Bool.and_eq_false_iff, decide_eq_false_iff_not] at hbad
      tauto
    · rw [← Bool.not_eq_true, searchTrigraph_iff]
      exact h2

/-- Claim C2: when a string contains no double quote, no backslash, no
character outside printable ASCII, and no trigraph-forming sequence,
`c_maybe` returns it unchanged while `c` merely wraps it in double quotes;
otherwise `c_maybe` agrees with `c`. -/
theorem c2_c_maybe_passthrough_or_c (s : List Char) :
    (((∀ ch ∈ s, ch ≠ '"' ∧ ch ≠ '\\' ∧ 0x20 ≤ ch.toNat ∧ ch.toNat ≤ 0x7E) ∧
        ¬ ∃ l x r, x ∈ trigraphChars ∧ s = l ++ '?' :: '?' :: x :: r) →
      c_maybe s = s ∧ c s = '"' :: (s ++ ['"'])) ∧
    ((¬ ((∀ ch ∈ s, ch ≠ '"' ∧ ch ≠ '\\' ∧ 0x20 ≤ ch.toNat ∧ ch.toNat ≤ 0x7E) ∧
        ¬ ∃ l x r, x ∈ trigraphChars ∧ s = l ++ '?' :: '?' :: x :: r)) →
      c_maybe s = c s) := by
  constructor
  · intro hclean
    have htrig := (c_trigger_false_iff s).mpr hclean
    rw [Bool.or_eq_false_iff, Bool.or_eq_false_iff] at htrig
    obtain ⟨⟨h1, h2⟩, h3⟩ := htrig
    constructor
    · unfold c_maybe
      rw [h1, h2, h3]
      simp
    · unfold c
      rw [subQuoteBackslash_eq_self (fun ch hch => ⟨(hclean.1 ch hch).1, (hclean.1 ch hch).2.1⟩),
        subNonPrintable_eq_self (fun ch hch => by
          have := hclean.1 ch hch
          simp only [printableASCII, Bool.and_eq_true, decide_eq_true_iff]
          tauto),
        subTrigraph_eq_self h3]
  · intro hdirty
    have htrig : (s.any (fun ch => ch = '"' || ch = '\\') || s.any (fun ch => !printableASCII ch)
        || searchTrigraph s) = true := by
      rcases Bool.eq_false_or_eq_true (s.any (fun ch => ch = '"' || ch = '\\')
          || s.any (fun ch => !printableASCII ch) || searchTrigraph s) with ht | hf
      · exact ht
      · exact absurd ((c_trigger_false_iff s).mp hf) hdirty
    unfold c_maybe
    rw [htrig]
    simp

theorem c2_witness :
    c_maybe ['h', 'i'] = ['h', 'i'] ∧ c ['h', 'i'] = '"' :: (['h', 'i'] ++ ['"']) :=
  (c2_c_maybe_passthrough_or_c ['h', 'i']).1
    ⟨by decide, fun ⟨l, x, r, _, heq⟩ => by
      have hlen := congrArg List.length heq
      simp [List.length_append] at hlen
      omega⟩



/-- Claim C3: `shell` applies `shell_always` exactly when the string
contains a character of the POSIX special set (tab, newline, space, double
quote, hash, dollar, percent, ampersand, single quote, parentheses, star,
semicolon, less-than, equals, greater-than, question mark, open bracket,
backslash, backtick, pipe, tilde), and returns the string unchanged when it
contains none of them. -/
theorem c3_shell_special_set (s : List Char) :
    ((∃ ch ∈ s, ch ∈ ['\t', '\n', ' ', '"', '#', '$', '%', '&', '\'', '(', ')', '*', ';',
        '<', '=', '>', '?', '[', '\\', Char.ofNat 0x60, '|', '~']) →
      shell s = shell_always s) ∧
    ((∀ ch ∈ s, ch ∉ ['\t', '\n', ' ', '"', '#', '$', '%', '&', '\'', '(', ')', '*', ';',
        '<', '=', '>', '?', '[', '\\', Char.ofNat 0x60, '|', '~']) →
      shell s = s) := by
  constructor
  · intro h
    unfold shell
    rw [if_pos]
    rw [List.any_eq_true]
    obtain ⟨ch, hch, hmem⟩ := h
    exact ⟨ch, hch, by simpa [shellSpecialClass] using hmem⟩
  · intro h
    unfold shell
    rw [if_neg]
    rw [List.any_eq_true]
    rintro ⟨ch, hch, hmem⟩
    exact h ch hch (by simpa [shellSpecialClass] using hmem)

theorem c3_witness :
    shell ['a', ' ', 'b'] = shell_always ['a', ' ', 'b'] ∧ shell ['a', 'b'] = ['a', 'b'] :=
  ⟨(c3_shell_special_set ['a', ' ', 'b']).1 ⟨' ', by decide, by decide⟩,
   (c3_shell_special_set ['a', 'b']).2 (by decide)⟩

theorem posixParseQuoted_cons (ch : Char) (rest : List Char) :
    posixParseQuoted (ch :: rest) =
      if ch = '\'' then posixParseUnquoted rest
      else (posixParseQuoted rest).map fun t => ch :: t := by
  rw [posixParseQuoted.eq_def]

theorem posixParseUnquoted_backslash (ch2 : Char) (rest2 : List Char) :
    posixParseUnquoted ('\\' :: ch2 :: rest2) =
      (posixParseUnquoted rest2).map fun t => ch2 :: t := by
  rw [posixParseUnquoted.eq_def]
  simp

theorem posixParseUnquoted_quote (rest : List Char) :
    posixParseUnquoted ('\'' :: rest) = posixParseQuoted rest := by
  rw [posixParseUnquoted.eq_def]
  simp

theorem posixParseQuoted_body (s : List Char) (k : List Char) :
    posixParseQuoted
      ((s.flatMap fun ch => if ch = '\'' then ['\'', '\\', '\'', '\''] else [ch]) ++ '\'' :: k)
      = (posixParseUnquoted k).map fun t => s ++ t := by
  induction s with
  | nil =>
    simp only [List.flatMap_nil, List.nil_append]
    rw [posixParseQuoted_cons]
    rw [if_pos rfl]
    rcases posixParseUnquoted k with _ | t <;> rfl
  | cons a s ih =>
    by_cases ha : a = '\''
    · subst ha
      rw [List.flatMap_cons, if_pos rfl]
      simp only [List.cons_append, List.nil_append]
      rw [posixParseQuoted_cons, if_pos rfl]
      rw [posixParseUnquoted_backslash]
      rw [posixParseUnquoted_quote]
      rw [ih]
      rcases posixParseUnquoted k with _ | t <;> rfl
    · simp only [List.flatMap_cons, if_neg ha, List.cons_append, List.nil_append]
      rw [posixParseQuoted_cons, if_neg ha, ih]
      rcases posixParseUnquoted k with _ | t <;> rfl

/-- Claim C4: `shell_always` wraps the string in single quotes after
replacing every single quote with the four characters quote, backslash,
quote, quote; a POSIX shell single-quote parser run on the output
reconstructs exactly the original string, and on the four characters
i, t, single quote, s the output is the nine-character sequence stated. -/
theorem c4_shell_always_roundtrip :
    (∀ s, shell_always s =
      '\'' :: ((s.flatMap fun ch => if ch = '\'' then ['\'', '\\', '\'', '\''] else [ch])
        ++ ['\''])) ∧
    (∀ s, posixParseUnquoted (shell_always s) = some s) ∧
    shell_always ['i', 't', '\'', 's'] =
      ['\'', 'i', 't', '\'', '\\', '\'', '\'', 's', '\''] := by
  refine ⟨fun s => rfl, fun s => ?_, by decide⟩
  unfold shell_always
  simp only [List.cons_append]
  rw [posixParseUnquoted_quote]
  rw [posixParseQuoted_body s []]
  simp [show posixParseUnquoted [] = some [] from rfl]



theorem char_le_iff_toNat {a b : Char} : a ≤ b ↔ a.toNat ≤ b.toNat := by
  rw [Char.le_def, UInt32.le_def]
  rfl

theorem isWordChar_iff {ch : Char} :
    isWordChar ch = true ↔
      (65 ≤ ch.toNat ∧ ch.toNat ≤ 90) ∨ (97 ≤ ch.toNat ∧ ch.toNat ≤ 122)
        ∨ (48 ≤ ch.toNat ∧ ch.toNat ≤ 57) ∨ ch = '_' := by
  unfold isWordChar
  simp only [Bool.or_eq_true, Bool.and_eq_true, decide_eq_true_iff, char_le_iff_toNat,
    show Char.toNat 'A' = 65 from rfl, show Char.toNat 'Z' = 90 from rfl,
    show Char.toNat 'a' = 97 from rfl, show Char.toNat 'z' = 122 from rfl,
    show Char.toNat '0' = 48 from rfl, show Char.toNat '9' = 57 from rfl]
  tauto

/-- Claim C8: `pcre` prefixes every character that is not an ASCII letter,
ASCII digit or underscore with a backslash and leaves the rest unchanged;
on a string made only of such word characters it is the identity. -/
theorem c8_pcre_word_chars (s : List Char) :
    (pcre s = s.flatMap fun ch =>
      if (65 ≤ ch.toNat ∧ ch.toNat ≤ 90) ∨ (97 ≤ ch.toNat ∧ ch.toNat ≤ 122)
          ∨ (48 ≤ ch.toNat ∧ ch.toNat ≤ 57) ∨ ch = '_' then [ch] else ['\\', ch]) ∧
    (s.all isWordChar = true → pcre s = s) := by
  constructor
  · unfold pcre
    congr 1
    funext ch
    by_cases h : (65 ≤ ch.toNat ∧ ch.toNat ≤ 90) ∨ (97 ≤ ch.toNat ∧ ch.toNat ≤ 122)
        ∨ (48 ≤ ch.toNat ∧ ch.toNat ≤ 57) ∨ ch = '_'
    · rw [if_pos h, isWordChar_iff.mpr h]
      simp
    · rw [if_neg h]
      have hw : isWordChar ch = false := by
        rcases Bool.eq_false_or_eq_true (isWordChar ch) with ht | hf
        · exact absurd (isWordChar_iff.mp ht) h
        · exact hf
      rw [hw]
      simp
  · intro h
    unfold pcre
    exact flatMap_id_of_forall fun ch hch => by
      rw [List.all_eq_true.mp h ch hch]
      simp

theorem c8_witness : pcre ['a', 'Z', '0', '_'] = ['a', 'Z', '0', '_'] :=
  (c8_pcre_word_chars ['a', 'Z', '0', '_']).2 (by decide)



theorem option_any_eq_true_iff (p : Char → Bool) (o : Option Char) :
    o.any p = true ↔ ∃ ch, o = some ch ∧ p ch = true := by
  cases o <;> simp [Option.any]

theorem csv_ws_bool_iff (s : List Char) :
    (decide (0 < s.length) && (s.head?.any pythonWhitespace.contains
        || s.getLast?.any pythonWhitespace.contains)) = true ↔
    ((∃ ch, s.head? = some ch ∧ ch ∈ pythonWhitespace) ∨
     (∃ ch, s.getLast? = some ch ∧ ch ∈ pythonWhitespace)) := by
  constructor
  · intro h
    rw [Bool.and_eq_true, Bool.or_eq_true_iff] at h
    rcases h.2 with h1 | h1
    · obtain ⟨ch, heq, hp⟩ := (option_any_eq_true_iff _ _).mp h1
      exact Or.inl ⟨ch, heq, by simpa using hp⟩
    · obtain ⟨ch, heq, hp⟩ := (option_any_eq_true_iff _ _).mp h1
      exact Or.inr ⟨ch, heq, by simpa using hp⟩
  · intro h
    rw [Bool.and_eq_true]
    constructor
    · rcases h with ⟨ch, heq, _⟩ | ⟨ch, heq, _⟩ <;>
        (cases s with
         | nil => simp at heq
         | cons a t => simp)
    · rw [Bool.or_eq_true_iff]
      rcases h with ⟨ch, heq, hp⟩ | ⟨ch, heq, hp⟩
      · exact Or.inl ((option_any_eq_true_iff _ _).mpr ⟨ch, heq, by simpa using hp⟩)
      · exact Or.inr ((option_any_eq_true_iff _ _).mpr ⟨ch, heq, by simpa using hp⟩)

/-- Claim C5: with the default separators (comma, newline), `csv` of a
string containing a double quote doubles every double quote and wraps in
double quotes, taking precedence over the other rules; otherwise a string
containing a comma or newline or beginning or ending with a whitespace
character is wrapped unmodified in double quotes; otherwise the string is
returned unchanged; with the stated concrete examples. -/
theorem c5_csv_default_rules (s : List Char) :
    ('"' ∈ s → csv s [','] ['\n'] =
      '"' :: ((s.flatMap fun ch => if ch = '"' then ['"', '"'] else [ch]) ++ ['"'])) ∧
    ('"' ∉ s → (',' ∈ s ∨ '\n' ∈ s ∨
        (∃ ch, s.head? = some ch ∧ ch ∈ pythonWhitespace) ∨
        (∃ ch, s.getLast? = some ch ∧ ch ∈ pythonWhitespace)) →
      csv s [','] ['\n'] = '"' :: (s ++ ['"'])) ∧
    ('"' ∉ s → ¬ (',' ∈ s ∨ '\n' ∈ s ∨
        (∃ ch, s.head? = some ch ∧ ch ∈ pythonWhitespace) ∨
        (∃ ch, s.getLast? = some ch ∧ ch ∈ pythonWhitespace)) →
      csv s [','] ['\n'] = s) ∧
    csv ['a', ',', 'b'] [','] ['\n'] = ['"', 'a', ',', 'b', '"'] ∧
    csv ['p', 'l', 'a', 'i', 'n'] [','] ['\n'] = ['p', 'l', 'a', 'i', 'n'] ∧
    csv ['h', 'e', ' ', 's', 'a', 'i', 'd', ' ', '"', 'h', 'i', '"'] [','] ['\n'] =
      ['"', 'h', 'e', ' ', 's', 'a', 'i', 'd', ' ', '"', '"', 'h', 'i', '"', '"', '"'] ∧
    csv [] [','] ['\n'] = [] := by
  refine ⟨?_, ?_, ?_, by decide, by decide, by decide, by decide⟩
  · intro h
    unfold csv
    rw [show isSubstrOf ['"'] s = true from isSubstrOf_singleton_iff.mpr h]
    simp
  · intro h1 h2
    unfold csv
    rw [show isSubstrOf ['"'] s = false from by
      rcases Bool.eq_false_or_eq_true (isSubstrOf ['"'] s) with ht | hf
      · exact absurd (isSubstrOf_singleton_iff.mp ht) h1
      · exact hf]
    have hcond : (isSubstrOf [','] s || isSubstrOf ['\n'] s ||
        (decide (0 < s.length) && (s.head?.any pythonWhitespace.contains
          || s.getLast?.any pythonWhitespace.contains))) = true := by
      rw [Bool.or_eq_true_iff, Bool.or_eq_true_iff]
      rcases h2 with h | h | h | h
      · exact Or.inl (Or.inl (isSubstrOf_singleton_iff.mpr h))
      · exact Or.inl (Or.inr (isSubstrOf_singleton_iff.mpr h))
      · exact Or.inr ((csv_ws_bool_iff s).mpr (Or.inl h))
      · exact Or.inr ((csv_ws_bool_iff s).mpr (Or.inr h))
    rw [hcond]
    simp
  · intro h1 h2
    unfold csv
    rw [show isSubstrOf ['"'] s = false from by
      rcases Bool.eq_false_or_eq_true (isSubstrOf ['"'] s) with ht | hf
      · exact absurd (isSubstrOf_singleton_iff.mp ht) h1
      · exact hf]
    have hcond : (isSubstrOf [','] s || isSubstrOf ['\n'] s ||
        (decide (0 < s.length) && (s.head?.any pythonWhitespace.contains
          || s.getLast?.any pythonWhitespace.contains))) = false := by
      rcases Bool.eq_false_or_eq_true (isSubstrOf [','] s || isSubstrOf ['\n'] s ||
          (decide (0 < s.length) && (s.head?.any pythonWhitespace.contains
            || s.getLast?.any pythonWhitespace.contains))) with ht | hf
      · exfalso
        rw [Bool.or_eq_true_iff, Bool.or_eq_true_iff] at ht
        apply h2
        rcases ht with (h | h) | h
        · exact Or.inl (isSubstrOf_singleton_iff.mp h)
        · exact Or.inr (Or.inl (isSubstrOf_singleton_iff.mp h))
        · rcases (csv_ws_bool_iff s).mp h with h | h
          · exact Or.inr (Or.inr (Or.inl h))
          · exact Or.inr (Or.inr (Or.inr h))
      · exact hf
    rw [hcond]
    simp

theorem c5_witness :
    csv ['"'] [','] ['\n'] =
      '"' :: ((['"'].flatMap fun ch => if ch = '"' then ['"', '"'] else [ch]) ++ ['"']) ∧
    csv ['p'] [','] ['\n'] = ['p'] :=
  ⟨(c5_csv_default_rules ['"']).1 (by decide),
   (c5_csv_default_rules ['p']).2.2.1 (by decide) (by
     rintro (h | h | ⟨ch, heq, hm⟩ | ⟨ch, heq, hm⟩) <;> simp_all <;>
       (subst heq; simp [pythonWhitespace] at hm))⟩



/-- Claim C9: `quote` with an unregistered style name returns the string
unchanged (lenient passthrough), and with each of the eight registered
names applies the corresponding quoting function. -/
theorem c9_quote_dispatch (s : List Char) (name : String) :
    (name ∉ (["literal", "shell-always", "shell", "escape", "c", "c-maybe", "pcre", "csv"]
        : List String) → quote s name = s) ∧
    quote s "literal" = literal s ∧
    quote s "shell-always" = shell_always s ∧
    quote s "shell" = shell s ∧
    quote s "escape" = escape s ∧
    quote s "c" = c s ∧
    quote s "c-maybe" = c_maybe s ∧
    quote s "pcre" = pcre s ∧
    quote s "csv" = csv s [','] ['\n'] := by
  refine ⟨?_, rfl, rfl, rfl, rfl, rfl, rfl, rfl, rfl⟩
  intro h
  simp only [List.mem_cons, List.not_mem_nil, or_false, not_or] at h
  obtain ⟨h1, h2, h3, h4, h5, h6, h7, h8⟩ := h
  unfold quote quoting_style_to_function_map
  simp only [List.lookup]
  rw [beq_eq_false_iff_ne.mpr h1, beq_eq_false_iff_ne.mpr h2, beq_eq_false_iff_ne.mpr h3,
    beq_eq_false_iff_ne.mpr h4, beq_eq_false_iff_ne.mpr h5, beq_eq_false_iff_ne.mpr h6,
    beq_eq_false_iff_ne.mpr h7, beq_eq_false_iff_ne.mpr h8]

theorem c9_witness : quote ['a'] "bogus" = ['a'] :=
  (c9_quote_dispatch ['a'] "bogus").1 (by decide)

end QuotePy
